import Mathlib

/-!
Verification of the `Pipeline` repository (Go, `src/cmd/main.go`): a shallow
embedding of its ring buffer, filter stages and pipeline composition, together
with proofs of the specified properties.

Conventions of the embedding:
* Go `int` is modelled as `Int`; the Go `%` operator truncates toward zero, which
  is `Int.tmod`.
* The mutable `RingIntBuffer` is modelled as a persistent structure; methods
  that mutate the receiver return the updated structure, and `Get` returns the
  pair (returned slice, updated buffer).
* Channel-based stages are modelled by their sequential input/output behaviour
  in a run where the cancellation channel never fires: the list of items a
  stage reads from its input channel is mapped to the list of items it sends on
  its output channel.  The synchronisation skeleton of the buffering stage
  (two workers, a WaitGroup, and a closer goroutine) is modelled separately as
  a labelled transition system.
-/

/-- The Go `%` on `int`: remainder truncated toward zero (`Int.tmod`). -/
def goMod (a b : Int) : Int := a.tmod b

/-- The `RingIntBuffer` struct of `main.go`: backing array, write cursor `pos`
(`-1` means "empty"), declared size.  The mutex field has no functional
content and is modelled separately for the locking-discipline claim. -/
structure RingIntBuffer where
  array : List Int
  pos : Int
  size : Int
  deriving Repr, DecidableEq

/-- Model of `NewRingIntBuffer(size)`: `make([]int, size)` zero-initialises the backing
array; the cursor starts at `-1`. -/
def NewRingIntBuffer (size : Int) : RingIntBuffer :=
  { array := List.replicate size.toNat 0
    pos := -1
    size := size }

/-- Model of `Push(el)`: `r.pos = (r.pos + 1) % r.size; r.array[r.pos] = el`. -/
def RingIntBuffer.Push (r : RingIntBuffer) (el : Int) : RingIntBuffer :=
  let p := goMod (r.pos + 1) r.size
  { r with pos := p, array := r.array.set p.toNat el }

/-- Model of `Get()`: if `r.pos < 0` return `nil` (modelled as `[]`) and leave the
buffer unchanged; otherwise return `r.array[:r.pos+1]` and reset the cursor
to `-1`.  The result is the pair (returned slice, buffer afterwards). -/
def RingIntBuffer.Get (r : RingIntBuffer) : List Int × RingIntBuffer :=
  if r.pos < 0 then ([], r)
  else (r.array.take (r.pos + 1).toNat, { r with pos := -1 })

/-- Pushing a whole list of items in order (repeated calls to `Push`). -/
def RingIntBuffer.pushList (r : RingIntBuffer) (l : List Int) : RingIntBuffer :=
  l.foldl RingIntBuffer.Push r

/-- The cancellation channel `done`.  In the functional model the run never
cancels, so the signal carries no information. -/
def Done := Unit

/-- Model of `negativeFilterStageInt`: the stage goroutine reads each input item in
order and forwards it iff `data >= 0` (negative numbers are dropped). -/
def negativeFilterStageInt (input : List Int) (done : Done) : List Int :=
  match input with
  | [] => []
  | data :: rest =>
      if data ≥ 0 then data :: negativeFilterStageInt rest done
      else negativeFilterStageInt rest done

/-- Model of `specialFilterStageInt`: forwards each input item iff
`data != 0 && data % 3 == 0`. -/
def specialFilterStageInt (input : List Int) (done : Done) : List Int :=
  match input with
  | [] => []
  | data :: rest =>
      if data ≠ 0 ∧ goMod data 3 = 0 then data :: specialFilterStageInt rest done
      else specialFilterStageInt rest done

/-- The constant `bufferSize = 10` of `main.go`. -/
def bufferSize : Int := 10

/-- Functional content of `bufferStageInt`: the collector worker pushes every
input item into a fresh `RingIntBuffer` of capacity `bufferSize`; the drainer
worker, at the first drain tick after the input is exhausted, emits whatever
`Get` returns. -/
def bufferStageInt (input : List Int) (done : Done) : List Int :=
  ((NewRingIntBuffer bufferSize).pushList input).Get.1

/-- The `StageInt` type: a pipeline stage maps an input sequence and the cancellation
signal to an output sequence. -/
def StageInt := List Int → Done → List Int

/-- The `PipelineInt` struct: the ordered stage list and the `done` channel. -/
structure PipelineInt where
  stages : List StageInt
  done : Done

/-- Model of `NewPipelineInt(done, stages...)`. -/
def NewPipelineInt (done : Done) (stages : List StageInt) : PipelineInt :=
  { stages := stages, done := done }

/-- The `for _, stage := range p.stages { c = stage(c, p.done) }` loop of
`Run`, unfolded over the stage list. -/
def runLoop (stages : List StageInt) (c : List Int) (done : Done) : List Int :=
  match stages with
  | [] => c
  | stage :: rest => runLoop rest (stage c done) done

/-- Model of `Run(source)`: thread the source through every stage in order and return
the final channel. -/
def PipelineInt.Run (p : PipelineInt) (source : List Int) : List Int :=
  runLoop p.stages source p.done

/-- The fields of `RingIntBuffer` that `Push` and `Get` share (protected, per
the spec, by the mutex `mu`). -/
inductive RBField where
  | pos
  | array
  deriving Repr, DecidableEq

/-- One access that a method makes to the shared state: which field, whether
it is a read or a write, and whether `mu` is held at that program point. -/
structure RBAccess where
  field : RBField
  isWrite : Bool
  underLock : Bool
  deriving Repr, DecidableEq

/-- The accesses `Get` makes to the shared fields, in program order
(`main.go`, lines 45-56): the emptiness test `r.pos < 0` runs BEFORE
`r.mu.Lock()`; the slice `r.array[:r.pos+1]` and the reset `r.pos = -1` run
after it. -/
def getAccesses : List RBAccess :=
  [ { field := .pos, isWrite := false, underLock := false },
    { field := .array, isWrite := false, underLock := true },
    { field := .pos, isWrite := false, underLock := true },
    { field := .pos, isWrite := true, underLock := true } ]

/-- The accesses `Push` makes to the shared fields, in program order
(`main.go`, lines 36-42): everything happens after `r.mu.Lock()`. -/
def pushAccesses : List RBAccess :=
  [ { field := .pos, isWrite := false, underLock := true },
    { field := .pos, isWrite := true, underLock := true },
    { field := .array, isWrite := true, underLock := true } ]

/-- The synchronisation skeleton of `bufferStageInt`: observable events of the
collector worker, the drainer worker and the closer goroutine. -/
inductive BufLabel where
  | send
  | collFinish
  | drainFinish
  | closeOut
  deriving Repr, DecidableEq

/-- Synchronisation state of `bufferStageInt`: whether each worker has
returned (running `wg.Done()` via defer), the WaitGroup counter, and whether
`close(output)` has run. -/
structure BufState where
  collDone : Bool
  drainDone : Bool
  counter : Nat
  closed : Bool
  deriving Repr, DecidableEq

/-- Initial state: `wg.Add(1)` twice, both workers running, output open. -/
def bufInit : BufState :=
  { collDone := false, drainDone := false, counter := 2, closed := false }

/-- One step of the skeleton.  `send`: only the drainer sends on `output`, so
a send requires the drainer not to have returned.  `collFinish`/`drainFinish`:
a worker returns, its deferred `wg.Done()` decrements the counter.
`closeOut`: the closer goroutine runs `wg.Wait()` then `close(output)`, so it
fires only once the counter reaches zero, and only once.  Returns `none` when
the label is not enabled. -/
def bufStep (s : BufState) (l : BufLabel) : Option BufState :=
  match l with
  | .send => if s.drainDone then none else some s
  | .collFinish =>
      if s.collDone then none
      else some { s with collDone := true, counter := s.counter - 1 }
  | .drainFinish =>
      if s.drainDone then none
      else some { s with drainDone := true, counter := s.counter - 1 }
  | .closeOut =>
      if s.counter = 0 ∧ s.closed = false then some { s with closed := true }
      else none

/-- Run a whole schedule of labels from a state; `none` when some label was
not enabled at its turn. -/
def bufRun (s : BufState) (ls : List BufLabel) : Option BufState :=
  match ls with
  | [] => some s
  | l :: rest =>
      match bufStep s l with
      | none => none
      | some s1 => bufRun s1 rest

/-- No `send` label occurs after a `closeOut` label in the schedule. -/
def noSendAfterClose (ls : List BufLabel) : Bool :=
  match ls with
  | [] => true
  | .closeOut :: rest => rest.all (fun l => l ≠ .send) && noSendAfterClose rest
  | _ :: rest => noSendAfterClose rest

/-- The function `goMod` agrees with the mathematical remainder on nonnegative operands. -/
theorem goMod_eq_emod (a b : Nat) : goMod (a : Int) (b : Int) = ((a % b : Nat) : Int) :=
  rfl

/-- The Go `%` is the identity below the modulus. -/
theorem goMod_eq_of_lt {a b : Int} (ha : 0 ≤ a) (hab : a < b) : goMod a b = a := by
  lift a to Nat using ha
  have hb : (0 : Int) ≤ b := by omega
  lift b to Nat using hb
  rw [goMod_eq_emod]
  have h2 : a % b = a := Nat.mod_eq_of_lt (by exact_mod_cast hab)
  exact_mod_cast h2

/-- The Go `%` of the modulus by itself is zero. -/
theorem goMod_self (b : Int) : goMod b b = 0 := Int.tmod_self

/-- The Go `%` with zero numerator is zero. -/
theorem goMod_zero_left (b : Int) : goMod 0 b = 0 := Int.zero_tmod b

/-- The Go `%` lands in `[0, b)` whenever the numerator is nonnegative and the
modulus positive. -/
theorem goMod_bounds {a b : Int} (ha : 0 ≤ a) (hb : 1 ≤ b) :
    0 ≤ goMod a b ∧ goMod a b < b := by
  lift a to Nat using ha
  have hb0 : (0 : Int) ≤ b := by omega
  lift b to Nat using hb0
  rw [goMod_eq_emod]
  have hblt : 0 < b := by exact_mod_cast hb
  have h2 : a % b < b := Nat.mod_lt a hblt
  constructor
  · exact_mod_cast Nat.zero_le (a % b)
  · exact_mod_cast h2

/-- The items the negative filter emits are exactly the nonnegative input
items. -/
theorem negativeFilter_mem (l : List Int) (done : Done) (v : Int) :
    v ∈ negativeFilterStageInt l done ↔ v ∈ l ∧ v ≥ 0 := by
  induction l with
  | nil => simp [negativeFilterStageInt]
  | cons a rest ih =>
      by_cases h : a ≥ 0
      · simp only [negativeFilterStageInt, if_pos h, List.mem_cons, ih]
        constructor
        · rintro (rfl | ⟨hm, hv⟩)
          · exact ⟨Or.inl rfl, h⟩
          · exact ⟨Or.inr hm, hv⟩
        · rintro ⟨rfl | hm, hv⟩
          · exact Or.inl rfl
          · exact Or.inr ⟨hm, hv⟩
      · simp only [negativeFilterStageInt, if_neg h, List.mem_cons, ih]
        constructor
        · rintro ⟨hm, hv⟩
          exact ⟨Or.inr hm, hv⟩
        · rintro ⟨rfl | hm, hv⟩
          · exact absurd hv h
          · exact ⟨hm, hv⟩

/-- The output of the negative filter is a subsequence of its input (surviving
items keep their relative order). -/
theorem negativeFilter_sublist (l : List Int) (done : Done) :
    List.Sublist (negativeFilterStageInt l done) l := by
  induction l with
  | nil => simp [negativeFilterStageInt]
  | cons a rest ih =>
      by_cases h : a ≥ 0
      · have heq : negativeFilterStageInt (a :: rest) done
            = a :: negativeFilterStageInt rest done := by
          simp [negativeFilterStageInt, h]
        rw [heq]
        exact ih.cons₂ a
      · have heq : negativeFilterStageInt (a :: rest) done
            = negativeFilterStageInt rest done := by
          simp [negativeFilterStageInt, h]
        rw [heq]
        exact ih.cons a

/-- The items the multiple-of-three filter emits are exactly the input items
that are nonzero multiples of three. -/
theorem specialFilter_mem (l : List Int) (done : Done) (v : Int) :
    v ∈ specialFilterStageInt l done ↔ v ∈ l ∧ (v ≠ 0 ∧ goMod v 3 = 0) := by
  induction l with
  | nil => simp [specialFilterStageInt]
  | cons a rest ih =>
      by_cases h : a ≠ 0 ∧ goMod a 3 = 0
      · simp only [specialFilterStageInt, if_pos h, List.mem_cons, ih]
        constructor
        · rintro (rfl | ⟨hm, hv⟩)
          · exact ⟨Or.inl rfl, h⟩
          · exact ⟨Or.inr hm, hv⟩
        · rintro ⟨rfl | hm, hv⟩
          · exact Or.inl rfl
          · exact Or.inr ⟨hm, hv⟩
      · simp only [specialFilterStageInt, if_neg h, List.mem_cons, ih]
        constructor
        · rintro ⟨hm, hv⟩
          exact ⟨Or.inr hm, hv⟩
        · rintro ⟨rfl | hm, hv⟩
          · exact absurd hv h
          · exact ⟨hm, hv⟩

/-- C6: for every integer `v` fed to the negative filter stage, `v` appears in
the output of the stage iff `v >= 0`, and the relative order of surviving items
equals their relative order in the input (the output is a subsequence of the
input). -/
theorem C6_negative_filter (v : Int) (l : List Int) (done : Done) (hv : v ∈ l) :
    (v ∈ negativeFilterStageInt l done ↔ v ≥ 0) ∧
    List.Sublist (negativeFilterStageInt l done) l := by
  refine ⟨?_, negativeFilter_sublist l done⟩
  rw [negativeFilter_mem]
  exact ⟨fun h => h.2, fun h => ⟨hv, h⟩⟩

/-- Witness for C6 at `v = 3`, `l = [-1, 3]`. -/
theorem C6_negative_filter_witness :
    (3 : Int) ∈ ([-1, 3] : List Int) ∧
    (((3 : Int) ∈ negativeFilterStageInt [-1, 3] () ↔ (3 : Int) ≥ 0) ∧
      List.Sublist (negativeFilterStageInt [-1, 3] ()) [-1, 3]) :=
  ⟨by decide, C6_negative_filter 3 [-1, 3] () (by decide)⟩

/-- C5: for every integer `v` fed to the multiple-of-three filter stage, `v`
appears in the output of the stage iff `v ≠ 0` and `v % 3 == 0` (Go remainder). -/
theorem C5_special_filter (v : Int) (l : List Int) (done : Done) (hv : v ∈ l) :
    v ∈ specialFilterStageInt l done ↔ v ≠ 0 ∧ goMod v 3 = 0 := by
  rw [specialFilter_mem]
  exact ⟨fun h => h.2, fun h => ⟨hv, h⟩⟩

/-- Witness for C5 at `v = -3`, `l = [0, -3, 5, 9]`. -/
theorem C5_special_filter_witness :
    (-3 : Int) ∈ ([0, -3, 5, 9] : List Int) ∧
    ((-3 : Int) ∈ specialFilterStageInt [0, -3, 5, 9] () ↔
      (-3 : Int) ≠ 0 ∧ goMod (-3) 3 = 0) :=
  ⟨by decide, C5_special_filter (-3) [0, -3, 5, 9] () (by decide)⟩

/-- C4: the end-to-end scenario on input `[-5, 3, 0, 6, 7, 9, -3, 12]`: the
negative filter drops `-5` and `-3`, the multiple-of-three filter keeps
exactly `3, 6, 9, 12`, and the buffering stage, after one drain interval,
emits exactly `3, 6, 9, 12` in that order. -/
theorem C4_end_to_end :
    negativeFilterStageInt [-5, 3, 0, 6, 7, 9, -3, 12] () = [3, 0, 6, 7, 9, 12] ∧
    specialFilterStageInt [3, 0, 6, 7, 9, 12] () = [3, 6, 9, 12] ∧
    bufferStageInt [3, 6, 9, 12] () = [3, 6, 9, 12] ∧
    (NewPipelineInt ()
        [negativeFilterStageInt, specialFilterStageInt, bufferStageInt]).Run
      [-5, 3, 0, 6, 7, 9, -3, 12] = [3, 6, 9, 12] := by
  decide

/-- C7: draining a freshly created buffer returns the empty result, and a
second consecutive drain (no `Push` in between) always returns the empty
result, for every buffer state. -/
theorem C7_empty_drain (size : Int) (r : RingIntBuffer) :
    (NewRingIntBuffer size).Get.1 = [] ∧ ((r.Get.2).Get.1 = []) := by
  constructor
  · simp [NewRingIntBuffer, RingIntBuffer.Get]
  · unfold RingIntBuffer.Get
    by_cases h : r.pos < 0
    · simp [h]
    · simp [h]

/-- The `for` loop of `Run` is a left fold of the stage list over the source
channel. -/
theorem runLoop_eq_foldl (stages : List StageInt) (c : List Int) (done : Done) :
    runLoop stages c done = stages.foldl (fun cur stage => stage cur done) c := by
  induction stages generalizing c with
  | nil => rfl
  | cons s rest ih => simp [runLoop, List.foldl, ih]

/-- C8: `Run` threads the source through the configured stages in
construction order — it folds `current = stage(current, done)` over the stage
list; on an empty stage list it returns the source unchanged, and prepending
a stage first rewires the source through that stage. -/
theorem C8_run_composition (done : Done) (stages : List StageInt)
    (stage : StageInt) (source : List Int) :
    (NewPipelineInt done stages).Run source
        = stages.foldl (fun cur st => st cur done) source ∧
    (NewPipelineInt done (stage :: stages)).Run source
        = (NewPipelineInt done stages).Run (stage source done) ∧
    (NewPipelineInt done []).Run source = source := by
  refine ⟨runLoop_eq_foldl stages source done, ?_, rfl⟩
  rfl

/-- C2 refutation record: `Get` tests `r.pos < 0` BEFORE acquiring `mu`, so
its first access to the shared cursor is not under the lock, while every
access `Push` makes is under the lock. -/
theorem C2_get_unlocked_empty_check :
    getAccesses.head? = some { field := .pos, isWrite := false, underLock := false } ∧
    getAccesses.all (fun a => a.underLock) = false ∧
    pushAccesses.all (fun a => a.underLock) = true := by
  decide

/-- Setting index `j` and then taking `j + 1` elements keeps the old first
`j` elements and appends the new one. -/
theorem take_set_succ (l : List Int) (j : Nat) (e : Int) (h : j < l.length) :
    (l.set j e).take (j + 1) = l.take j ++ [e] := by
  rw [List.set_eq_take_cons_drop e h]
  rw [List.take_append_eq_append_take]
  have hlen : (l.take j).length = j := by
    rw [List.length_take]
    omega
  rw [hlen]
  have h1 : j + 1 - j = 1 := by omega
  rw [h1]
  have h2 : (l.take j).take (j + 1) = l.take j := by
    rw [List.take_take]
    congr 1
    omega
  rw [h2]
  rfl

/-- A run of `Push` calls that stays strictly inside the array (no
wrap-around): starting from cursor `pos`, pushing the list `u` writes `u`
into slots `pos+1, …, pos+u.length` and leaves the cursor on the last slot
written. -/
theorem pushList_no_wrap (u : List Int) (r : RingIntBuffer)
    (hsz : r.size = (r.array.length : Int))
    (hpos : -1 ≤ r.pos)
    (hfit : r.pos + 1 + u.length ≤ r.size) :
    r.pushList u =
      { array := r.array.take (r.pos + 1).toNat ++ u
          ++ r.array.drop ((r.pos + 1).toNat + u.length),
        pos := r.pos + u.length,
        size := r.size } := by
  induction u generalizing r with
  | nil =>
      simp only [RingIntBuffer.pushList, List.foldl, List.length_nil,
        List.append_nil, Nat.add_zero, Int.natCast_zero, Int.add_zero]
      rw [List.take_append_drop]
  | cons e u2 ih =>
      have hstep : r.Push e =
          { array := r.array.set (r.pos + 1).toNat e,
            pos := r.pos + 1,
            size := r.size } := by
        have hlt : r.pos + 1 < r.size := by
          have : (0 : Int) ≤ (u2.length : Int) := Int.natCast_nonneg _
          simp only [List.length_cons] at hfit
          push_cast at hfit
          omega
        have hmod : goMod (r.pos + 1) r.size = r.pos + 1 :=
          goMod_eq_of_lt (by omega) hlt
        simp [RingIntBuffer.Push, hmod]
      have hrec : r.pushList (e :: u2) = (r.Push e).pushList u2 := rfl
      have hj : ((r.pos + 1).toNat : Int) = r.pos + 1 := Int.toNat_of_nonneg (by omega)
      have hjlt : (r.pos + 1).toNat < r.array.length := by
        have hx : r.pos + 1 < (r.array.length : Int) := by
          simp only [List.length_cons] at hfit
          push_cast at hfit
          omega
        omega
      have hA : (r.size : Int) = (((r.array.set (r.pos + 1).toNat e).length : Nat) : Int) := by
        rw [List.length_set]
        exact hsz
      have hB : (-1 : Int) ≤ r.pos + 1 := by omega
      have hC : (r.pos + 1) + 1 + (u2.length : Int) ≤ r.size := by
        simp only [List.length_cons] at hfit
        push_cast at hfit
        omega
      rw [hrec, hstep,
        ih { array := r.array.set (r.pos + 1).toNat e, pos := r.pos + 1,
             size := r.size } hA hB hC]
      simp only [RingIntBuffer.mk.injEq]
      refine ⟨?_, ?_, trivial⟩
      · have ht : ((r.pos + 1) + 1).toNat = (r.pos + 1).toNat + 1 := by omega
        rw [ht, take_set_succ _ _ _ hjlt,
          List.drop_set_of_lt _ _ (by omega : (r.pos + 1).toNat
            < (r.pos + 1).toNat + 1 + u2.length)]
        simp only [List.length_cons, List.append_assoc, List.cons_append,
          List.nil_append]
        have harg : (r.pos + 1).toNat + 1 + u2.length
            = (r.pos + 1).toNat + (u2.length + 1) := by omega
        rw [harg]
      · simp only [List.length_cons]
        push_cast
        ring

/-- When the cursor sits on the last slot, the next `Push` wraps to slot `0`:
pushing from `pos = size - 1` behaves exactly like pushing from the freshly
drained cursor `-1`. -/
theorem pushList_wrap (r : RingIntBuffer) (e : Int) (u : List Int)
    (hpos : r.pos = r.size - 1) (hsz : 1 ≤ r.size) :
    r.pushList (e :: u) = ({ r with pos := -1 } : RingIntBuffer).pushList (e :: u) := by
  have hps : r.pos + 1 = r.size := by omega
  have h1 : r.Push e = { array := r.array.set 0 e, pos := 0, size := r.size } := by
    have hmod : goMod (r.pos + 1) r.size = 0 := by
      rw [hps]
      exact goMod_self r.size
    simp [RingIntBuffer.Push, hmod]
  have h2 : ({ r with pos := -1 } : RingIntBuffer).Push e
      = { array := r.array.set 0 e, pos := 0, size := r.size } := by
    have hmod : goMod 0 r.size = 0 := goMod_zero_left r.size
    simp [RingIntBuffer.Push, hmod]
  calc r.pushList (e :: u) = (r.Push e).pushList u := rfl
    _ = (({ r with pos := -1 } : RingIntBuffer).Push e).pushList u := by rw [h1, h2]
    _ = ({ r with pos := -1 } : RingIntBuffer).pushList (e :: u) := rfl

/-- C1, capacity behaviour of the ring buffer, amended to what `Get` actually
returns.  Pushing exactly `n = size` items into a fresh buffer and draining
returns exactly those items in array order.  Pushing `n + k` items
(`0 < k < n`) leaves the storage with the first `k` originally pushed items
overwritten by the last `k` pushed items (`ws ++ vs.drop k`), but draining
then returns only the `k` items at indices `0 … pos`, namely the last `k`
pushed items — not `size` items. -/
theorem C1_ring_capacity (n k : Nat) (vs ws : List Int)
    (hn : 0 < n) (hvs : vs.length = n) (hk : 0 < k) (hkn : k < n)
    (hws : ws.length = k) :
    ((NewRingIntBuffer ((n : Nat) : Int)).pushList vs).Get.1 = vs ∧
    ((NewRingIntBuffer ((n : Nat) : Int)).pushList (vs ++ ws)).Get.1 = ws ∧
    ((NewRingIntBuffer ((n : Nat) : Int)).pushList (vs ++ ws)).array
      = ws ++ vs.drop k := by
  have hfresh : NewRingIntBuffer ((n : Nat) : Int)
      = { array := List.replicate n 0, pos := -1, size := ((n : Nat) : Int) } := by
    simp [NewRingIntBuffer]
  have hdropr : (List.replicate n (0 : Int)).drop n = [] := by
    have h1 : (List.replicate n (0 : Int)).length = n := List.length_replicate n 0
    calc (List.replicate n (0 : Int)).drop n
        = (List.replicate n (0 : Int)).drop (List.replicate n (0 : Int)).length := by
          rw [h1]
      _ = [] := List.drop_length _
  have hb1 : (NewRingIntBuffer ((n : Nat) : Int)).pushList vs
      = { array := vs, pos := -1 + (vs.length : Int), size := ((n : Nat) : Int) } := by
    rw [hfresh,
      pushList_no_wrap vs
        { array := List.replicate n 0, pos := -1, size := ((n : Nat) : Int) }
        (by simp) (by norm_num) (by simp; omega)]
    simp only [RingIntBuffer.mk.injEq]
    refine ⟨?_, by simp, trivial⟩
    simp [hvs, hdropr]
  have hb2 : (NewRingIntBuffer ((n : Nat) : Int)).pushList (vs ++ ws)
      = { array := ws ++ vs.drop k, pos := -1 + (k : Int),
          size := ((n : Nat) : Int) } := by
    have hsplit : (NewRingIntBuffer ((n : Nat) : Int)).pushList (vs ++ ws)
        = RingIntBuffer.pushList
            { array := vs, pos := -1 + (vs.length : Int), size := ((n : Nat) : Int) }
            ws := by
      rw [RingIntBuffer.pushList, List.foldl_append]
      rw [show List.foldl RingIntBuffer.Push (NewRingIntBuffer ((n : Nat) : Int)) vs
          = (NewRingIntBuffer ((n : Nat) : Int)).pushList vs from rfl, hb1]
      rfl
    rw [hsplit]
    cases ws with
    | nil =>
        exact absurd hws (by simp; omega)
    | cons w ws2 =>
        have hstep1 : RingIntBuffer.pushList
            { array := vs, pos := -1 + (vs.length : Int), size := ((n : Nat) : Int) }
            (w :: ws2)
            = RingIntBuffer.pushList
            { array := vs, pos := -1, size := ((n : Nat) : Int) } (w :: ws2) :=
          pushList_wrap
            { array := vs, pos := -1 + (vs.length : Int), size := ((n : Nat) : Int) }
            w ws2 (by simp; rw [hvs]; ring) (by simp; omega)
        have hstep2 : RingIntBuffer.pushList
            { array := vs, pos := -1, size := ((n : Nat) : Int) } (w :: ws2)
            = { array := (w :: ws2) ++ vs.drop (w :: ws2).length,
                pos := -1 + ((w :: ws2).length : Int),
                size := ((n : Nat) : Int) } := by
          rw [pushList_no_wrap (w :: ws2)
            { array := vs, pos := -1, size := ((n : Nat) : Int) }
            (by simp [hvs]) (by norm_num)
            (by
              have hws2 : ws2.length + 1 = k := by
                simpa using hws
              simp
              omega)]
          simp only [RingIntBuffer.mk.injEq]
          refine ⟨?_, by simp, trivial⟩
          simp
        rw [hstep1, hstep2, hws]
  refine ⟨?_, ?_, ?_⟩
  · rw [hb1]
    have hposn : ¬ (-1 + (vs.length : Int) < 0) := by
      rw [hvs]; push_cast; omega
    simp only [RingIntBuffer.Get, hposn, if_false]
    have ht : (-1 + (vs.length : Int) + 1).toNat = vs.length := by omega
    rw [ht]
    exact List.take_length vs
  · rw [hb2]
    have hposk : ¬ (-1 + (k : Int) < 0) := by push_cast; omega
    simp only [RingIntBuffer.Get, hposk, if_false]
    have ht : (-1 + (k : Int) + 1).toNat = k := by omega
    rw [ht]
    rw [show k = ws.length from hws.symm]
    exact List.take_left ws (vs.drop ws.length)
  · rw [hb2]

/-- C1 as literally stated is false on the code: pushing `size + k = 3` items
into a buffer of capacity `2` and draining returns `1` item (`[30]`), not
`size = 2` items. -/
theorem C1_counterexample :
    ((NewRingIntBuffer 2).pushList ([10, 20] ++ [30])).Get.1 = [30] ∧
    ¬ ((NewRingIntBuffer 2).pushList ([10, 20] ++ [30])).Get.1.length = 2 := by
  decide

/-- Witness for C1 at `n = 2`, `k = 1`, `vs = [10, 20]`, `ws = [30]`. -/
theorem C1_ring_capacity_witness :
    (0 < 2 ∧ ([10, 20] : List Int).length = 2 ∧ 0 < 1 ∧ 1 < 2 ∧
      ([30] : List Int).length = 1) ∧
    (((NewRingIntBuffer ((2 : Nat) : Int)).pushList [10, 20]).Get.1 = [10, 20] ∧
      ((NewRingIntBuffer ((2 : Nat) : Int)).pushList ([10, 20] ++ [30])).Get.1 = [30] ∧
      ((NewRingIntBuffer ((2 : Nat) : Int)).pushList ([10, 20] ++ [30])).array
        = [30] ++ ([10, 20] : List Int).drop 1) :=
  ⟨⟨by decide, by decide, by decide, by decide, by decide⟩,
    C1_ring_capacity 2 1 [10, 20] [30] (by decide) (by decide) (by decide)
      (by decide) (by decide)⟩

/-- C3: on a buffer with `pos >= 0` (and the cursor within the backing
array), `Get` returns exactly the entries at indices `0 … pos` in array order
— the returned slice has length `pos + 1` and is the part of the array that
`drop (pos+1)` removes — and afterwards the cursor is `-1` while the backing
array and size are unchanged. -/
theorem C3_drain_resets_cursor (r : RingIntBuffer) (h0 : 0 ≤ r.pos)
    (hlen : (r.pos + 1).toNat ≤ r.array.length) :
    r.Get.1.length = (r.pos + 1).toNat ∧
    r.Get.1 ++ r.array.drop ((r.pos + 1).toNat) = r.array ∧
    r.Get.2.pos = -1 ∧ r.Get.2.array = r.array ∧ r.Get.2.size = r.size := by
  have hneg : ¬ (r.pos < 0) := by omega
  simp only [RingIntBuffer.Get, hneg, if_false]
  refine ⟨?_, ?_, trivial, trivial, trivial⟩
  · rw [List.length_take]
    omega
  · exact List.take_append_drop _ _

/-- Witness for C3 at the buffer `⟨[4, 5, 6], 1, 3⟩`. -/
theorem C3_drain_resets_cursor_witness :
    ((0 : Int) ≤ (1 : Int) ∧
      (((1 : Int) + 1).toNat ≤ ([4, 5, 6] : List Int).length)) ∧
    (let r : RingIntBuffer := { array := [4, 5, 6], pos := 1, size := 3 }
     r.Get.1.length = (r.pos + 1).toNat ∧
     r.Get.1 ++ r.array.drop ((r.pos + 1).toNat) = r.array ∧
     r.Get.2.pos = -1 ∧ r.Get.2.array = r.array ∧ r.Get.2.size = r.size) :=
  ⟨⟨by decide, by decide⟩,
    C3_drain_resets_cursor { array := [4, 5, 6], pos := 1, size := 3 }
      (by decide) (by decide)⟩

/-- The reachable-state invariant of the ring buffer: positive size, cursor
in `[-1, size)`, and the backing array of declared length. -/
def RingIntBuffer.WF (r : RingIntBuffer) : Prop :=
  1 ≤ r.size ∧ -1 ≤ r.pos ∧ r.pos < r.size ∧ (r.array.length : Int) = r.size

instance (r : RingIntBuffer) : Decidable r.WF := by
  unfold RingIntBuffer.WF
  infer_instance

/-- C10: for `size >= 1` the invariant `-1 <= pos < size` (with the array of
length `size`) holds for a fresh buffer and is preserved by `Push` and `Get`;
the slot index `Push` computes is in bounds, the modulus is never zero, and
the slice bound `Get` uses never exceeds the array.  (`NewRingIntBuffer`
itself never checks `size >= 1`.) -/
theorem C10_invariant (size : Int) (r : RingIntBuffer) (el : Int)
    (hsize : 1 ≤ size) (hr : r.WF) :
    (NewRingIntBuffer size).WF ∧
    (r.Push el).WF ∧
    (r.Get.2).WF ∧
    r.size ≠ 0 ∧
    (0 ≤ goMod (r.pos + 1) r.size ∧ goMod (r.pos + 1) r.size < r.size) ∧
    (goMod (r.pos + 1) r.size).toNat < r.array.length ∧
    (0 ≤ r.pos → (r.pos + 1).toNat ≤ r.array.length) := by
  obtain ⟨h1, h2, h3, h4⟩ := hr
  have hmod : 0 ≤ goMod (r.pos + 1) r.size ∧ goMod (r.pos + 1) r.size < r.size :=
    goMod_bounds (by omega) h1
  refine ⟨?_, ?_, ?_, by omega, hmod, by omega, by omega⟩
  · unfold RingIntBuffer.WF
    simp [NewRingIntBuffer]
    omega
  · have hp : (r.Push el).pos = goMod (r.pos + 1) r.size := rfl
    have ha : (r.Push el).array
        = r.array.set (goMod (r.pos + 1) r.size).toNat el := rfl
    have hs : (r.Push el).size = r.size := rfl
    refine ⟨by rw [hs]; exact h1, by rw [hp]; omega,
      by rw [hp, hs]; exact hmod.2, ?_⟩
    rw [ha, hs, List.length_set]
    exact h4
  · unfold RingIntBuffer.Get
    by_cases hcase : r.pos < 0
    · simp only [hcase, if_true]
      exact ⟨h1, h2, h3, h4⟩
    · simp only [hcase, if_false]
      refine ⟨h1, ?_, ?_, h4⟩
      · show (-1 : Int) ≤ -1
        exact le_refl _
      · show (-1 : Int) < r.size
        omega

/-- Witness for C10 at `size = 3`, `r` the fresh buffer of size 3, `el = 7`. -/
theorem C10_invariant_witness :
    ((1 : Int) ≤ 3 ∧ (NewRingIntBuffer 3).WF) ∧
    ((NewRingIntBuffer 3).WF ∧
      ((NewRingIntBuffer 3).Push 7).WF ∧
      ((NewRingIntBuffer 3).Get.2).WF ∧
      (NewRingIntBuffer 3).size ≠ 0 ∧
      (0 ≤ goMod ((NewRingIntBuffer 3).pos + 1) (NewRingIntBuffer 3).size ∧
        goMod ((NewRingIntBuffer 3).pos + 1) (NewRingIntBuffer 3).size
          < (NewRingIntBuffer 3).size) ∧
      (goMod ((NewRingIntBuffer 3).pos + 1) (NewRingIntBuffer 3).size).toNat
        < (NewRingIntBuffer 3).array.length ∧
      (0 ≤ (NewRingIntBuffer 3).pos →
        ((NewRingIntBuffer 3).pos + 1).toNat ≤ (NewRingIntBuffer 3).array.length)) :=
  ⟨⟨by decide, by decide⟩, C10_invariant 3 (NewRingIntBuffer 3) 7 (by decide) (by decide)⟩

/-- Invariant of the synchronisation skeleton of the buffering stage: the WaitGroup
counter counts the workers that have not yet returned, and the output can only
be closed once both have returned and the counter is zero. -/
def bufInv (s : BufState) : Prop :=
  (s.collDone = false → s.drainDone = false → s.counter = 2) ∧
  (s.collDone = true → s.drainDone = false → s.counter = 1) ∧
  (s.collDone = false → s.drainDone = true → s.counter = 1) ∧
  (s.collDone = true → s.drainDone = true → s.counter = 0) ∧
  (s.closed = true → s.collDone = true ∧ s.drainDone = true ∧ s.counter = 0)

/-- Every enabled step preserves the WaitGroup invariant. -/
theorem bufStep_inv {s s1 : BufState} {l : BufLabel} (hInv : bufInv s)
    (h : bufStep s l = some s1) : bufInv s1 := by
  obtain ⟨c, d, n, cl⟩ := s
  cases l <;> cases c <;> cases d <;> cases cl <;> simp [bufStep] at h <;>
    first
      | (obtain ⟨hn, h2⟩ := h
         subst h2
         simp [bufInv] at hInv ⊢ <;> omega)
      | (subst h
         simp [bufInv] at hInv ⊢ <;> omega)

/-- A step that is not the finish label of the worker leaves its finished flag
unchanged, and only `closeOut` sets `closed`. -/
theorem bufStep_flags {s s1 : BufState} {l : BufLabel}
    (h : bufStep s l = some s1) :
    (l ≠ BufLabel.collFinish → s1.collDone = s.collDone) ∧
    (l ≠ BufLabel.drainFinish → s1.drainDone = s.drainDone) ∧
    (l ≠ BufLabel.closeOut → s1.closed = s.closed) := by
  obtain ⟨c, d, n, cl⟩ := s
  cases l <;> cases c <;> cases d <;> cases cl <;> simp [bufStep] at h <;>
    first
      | (obtain ⟨hn, h2⟩ := h
         subst h2
         simp)
      | (subst h
         simp)

/-- Running a schedule preserves the WaitGroup invariant. -/
theorem bufRun_inv {tr : List BufLabel} {s s2 : BufState} (hInv : bufInv s)
    (h : bufRun s tr = some s2) : bufInv s2 := by
  induction tr generalizing s with
  | nil =>
      simp only [bufRun, Option.some.injEq] at h
      rw [← h]
      exact hInv
  | cons l rest ih =>
      simp only [bufRun] at h
      cases hs : bufStep s l with
      | none => rw [hs] at h; simp at h
      | some s1 =>
          rw [hs] at h
          exact ih (bufStep_inv hInv hs) h

/-- From a state whose output is already closed, no further step is enabled:
a successful run must be the empty schedule. -/
theorem bufRun_closed_nil {tr : List BufLabel} {s s2 : BufState}
    (hInv : bufInv s) (hcl : s.closed = true)
    (h : bufRun s tr = some s2) : tr = [] := by
  cases tr with
  | nil => rfl
  | cons l rest =>
      exfalso
      obtain ⟨hc, hd, hn⟩ := hInv.2.2.2.2 hcl
      simp only [bufRun] at h
      cases l <;> simp [bufStep, hc, hd, hn, hcl] at h

/-- Once a run ends with the collector finished, either it was finished at the
start or its finish label occurs in the schedule; same for the drainer. -/
theorem bufRun_finish_mem {tr : List BufLabel} {s s2 : BufState}
    (h : bufRun s tr = some s2) :
    (s2.collDone = true → s.collDone = true ∨ BufLabel.collFinish ∈ tr) ∧
    (s2.drainDone = true → s.drainDone = true ∨ BufLabel.drainFinish ∈ tr) := by
  induction tr generalizing s with
  | nil =>
      simp only [bufRun, Option.some.injEq] at h
      rw [← h]
      exact ⟨fun hx => Or.inl hx, fun hx => Or.inl hx⟩
  | cons l rest ih =>
      simp only [bufRun] at h
      cases hs : bufStep s l with
      | none => rw [hs] at h; simp at h
      | some s1 =>
          rw [hs] at h
          have hflags := bufStep_flags hs
          constructor
          · intro hx
            rcases (ih h).1 hx with h1 | h1
            · by_cases hl : l = BufLabel.collFinish
              · right; rw [hl]; exact List.mem_cons_self _ _
              · left; rw [← (hflags.1 hl)]; exact h1
            · right; exact List.mem_cons_of_mem _ h1
          · intro hx
            rcases (ih h).2 hx with h1 | h1
            · by_cases hl : l = BufLabel.drainFinish
              · right; rw [hl]; exact List.mem_cons_self _ _
              · left; rw [← (hflags.2.1 hl)]; exact h1
            · right; exact List.mem_cons_of_mem _ h1

/-- Running `bufRun` splits over concatenated schedules. -/
theorem bufRun_append (t1 t2 : List BufLabel) (s : BufState) :
    bufRun s (t1 ++ t2) = Option.bind (bufRun s t1) (fun s1 => bufRun s1 t2) := by
  induction t1 generalizing s with
  | nil => simp [bufRun]
  | cons l rest ih =>
      simp only [List.cons_append, bufRun]
      cases bufStep s l with
      | none => simp
      | some s1 => simp [ih]

/-- The check `noSendAfterClose` ignores a head label that is not `closeOut`. -/
theorem noSendAfterClose_cons_ne (l : BufLabel) (rest : List BufLabel)
    (hne : l ≠ BufLabel.closeOut) :
    noSendAfterClose (l :: rest) = noSendAfterClose rest := by
  cases l <;> simp [noSendAfterClose] at hne ⊢

/-- Along any enabled schedule, `closeOut` fires at most once and no `send`
follows it. -/
theorem bufRun_props {tr : List BufLabel} {s s2 : BufState} (hInv : bufInv s)
    (h : bufRun s tr = some s2) :
    tr.count BufLabel.closeOut ≤ 1 ∧ noSendAfterClose tr = true := by
  induction tr generalizing s with
  | nil => simp [noSendAfterClose]
  | cons l rest ih =>
      simp only [bufRun] at h
      cases hs : bufStep s l with
      | none => rw [hs] at h; simp at h
      | some s1 =>
          rw [hs] at h
          have hInv1 := bufStep_inv hInv hs
          by_cases hl : l = BufLabel.closeOut
          · subst hl
            have hcl1 : s1.closed = true := by
              simp only [bufStep] at hs
              split at hs
              · simp only [Option.some.injEq] at hs
                rw [← hs]
              · simp at hs
            have hrest : rest = [] := bufRun_closed_nil hInv1 hcl1 h
            subst hrest
            refine ⟨by simp, by simp [noSendAfterClose]⟩
          · have hprops := ih hInv1 h
            refine ⟨?_, ?_⟩
            · rw [List.count_cons]
              have hbeq : (l == BufLabel.closeOut) = false := by
                simp [hl]
              simp only [hbeq, if_false]
              exact hprops.1
            · rw [noSendAfterClose_cons_ne l rest hl]
              exact hprops.2

/-- C9: in the synchronisation skeleton of the buffering stage, in every enabled
schedule from the initial state, whenever the output is closed both the
collector and the drainer have terminated; every occurrence of `closeOut` in
the schedule is preceded by the finish events of both workers and is final (so the
output is closed at most once and no send occurs at or after the close). -/
theorem C9_close_after_both_workers (tr : List BufLabel) (s : BufState)
    (h : bufRun bufInit tr = some s) :
    (s.closed = true → s.collDone = true ∧ s.drainDone = true) ∧
    (∀ pre post, tr = pre ++ BufLabel.closeOut :: post →
        BufLabel.collFinish ∈ pre ∧ BufLabel.drainFinish ∈ pre ∧ post = []) ∧
    tr.count BufLabel.closeOut ≤ 1 ∧
    noSendAfterClose tr = true := by
  have hInv0 : bufInv bufInit := by
    simp [bufInv, bufInit]
  refine ⟨?_, ?_, (bufRun_props hInv0 h).1, (bufRun_props hInv0 h).2⟩
  · intro hcl
    have hInv2 := bufRun_inv hInv0 h
    obtain ⟨hc, hd, _⟩ := hInv2.2.2.2.2 hcl
    exact ⟨hc, hd⟩
  · intro pre post hsplit
    subst hsplit
    rw [bufRun_append] at h
    cases hpre : bufRun bufInit pre with
    | none => rw [hpre] at h; simp at h
    | some s1 =>
        rw [hpre] at h
        simp only [Option.bind] at h
        have hInv1 := bufRun_inv hInv0 hpre
        simp only [bufRun] at h
        cases hs : bufStep s1 BufLabel.closeOut with
        | none => rw [hs] at h; simp at h
        | some s2 =>
            rw [hs] at h
            have hcond : s1.counter = 0 ∧ s1.closed = false
                ∧ s2 = { s1 with closed := true } := by
              simp only [bufStep] at hs
              split at hs
              · next hcnd =>
                  simp only [Option.some.injEq] at hs
                  exact ⟨hcnd.1, hcnd.2, hs.symm⟩
              · simp at hs
            obtain ⟨hcnt, hncl, hs2eq⟩ := hcond
            have hboth : s1.collDone = true ∧ s1.drainDone = true := by
              obtain ⟨i1, i2, i3, _, _⟩ := hInv1
              cases hc : s1.collDone <;> cases hd : s1.drainDone
              · have := i1 hc hd; omega
              · have := i3 hc hd; omega
              · have := i2 hc hd; omega
              · exact ⟨rfl, rfl⟩
            have hmem := bufRun_finish_mem hpre
            refine ⟨?_, ?_, ?_⟩
            · rcases hmem.1 hboth.1 with hcd | hm
              · simp [bufInit] at hcd
              · exact hm
            · rcases hmem.2 hboth.2 with hdd | hm
              · simp [bufInit] at hdd
              · exact hm
            · have hcl2 : s2.closed = true := by
                rw [hs2eq]
              exact bufRun_closed_nil (bufStep_inv hInv1 hs) hcl2 h

/-- Witness for C9 at the schedule
`[send, collFinish, send, drainFinish, closeOut]`. -/
theorem C9_close_after_both_workers_witness :
    (bufRun bufInit
        [BufLabel.send, BufLabel.collFinish, BufLabel.send,
          BufLabel.drainFinish, BufLabel.closeOut]
      = some { collDone := true, drainDone := true, counter := 0, closed := true }) ∧
    ((({ collDone := true, drainDone := true, counter := 0, closed := true }
          : BufState).closed = true →
        ({ collDone := true, drainDone := true, counter := 0, closed := true }
          : BufState).collDone = true ∧
        ({ collDone := true, drainDone := true, counter := 0, closed := true }
          : BufState).drainDone = true) ∧
      (∀ pre post,
          [BufLabel.send, BufLabel.collFinish, BufLabel.send,
            BufLabel.drainFinish, BufLabel.closeOut]
            = pre ++ BufLabel.closeOut :: post →
          BufLabel.collFinish ∈ pre ∧ BufLabel.drainFinish ∈ pre ∧ post = []) ∧
      ([BufLabel.send, BufLabel.collFinish, BufLabel.send,
          BufLabel.drainFinish, BufLabel.closeOut]).count BufLabel.closeOut ≤ 1 ∧
      noSendAfterClose
        [BufLabel.send, BufLabel.collFinish, BufLabel.send,
          BufLabel.drainFinish, BufLabel.closeOut] = true) :=
  ⟨by decide,
    C9_close_after_both_workers
      [BufLabel.send, BufLabel.collFinish, BufLabel.send,
        BufLabel.drainFinish, BufLabel.closeOut]
      { collDone := true, drainDone := true, counter := 0, closed := true }
      (by decide)⟩
